import Mathlib

/-!
Shallow embedding of the persistent memory index implemented in
`src/scripts/memory-index.py`: a SQLite-backed document store with
content-hash-driven incremental re-embedding, a process-wide
version-stamped index cache, and brute-force cosine-similarity search.

Modelling conventions:
* The SQLite `documents` table is a `List Doc` in rowid order; since every
  write uses `INSERT OR REPLACE` (which deletes the old row and appends a
  fresh one with a new rowid), a replace is modelled as filter-out-then-append.
  The `meta` key-value table is an association list with the same
  replace semantics; all reads are key lookups.
* Embedding vectors (`numpy float32` arrays) are modelled as `List Int`:
  the claims under verification only depend on the score comparisons
  produced by dot products, not on floating point rounding, and
  `sentence_transformers` embeddings are opaque external data.  The
  embedding provider `model.encode` is a parameter `emb : String → List Int`
  applied per text; `batch_size` does not change the returned vectors.
* Timestamps (`time.time()`) are `Nat`; the whole batch shares one value
  `now` exactly as in the source.
* `np.argsort(scores)` (default kind) is modelled as a stable ascending
  insertion sort of indices (numpy's introsort degenerates to stable
  insertion sort on the small score arrays at issue); the source then
  reverses it with `[::-1]`.
* Fallible command handlers return `Option` results: `none` is the
  `{"status": "error"}` response printed by the outer guard.  SQLite
  transaction semantics: `conn.commit()` makes the pending writes durable;
  an exception before a commit rolls the uncommitted writes back when the
  connection closes.  `command_upsert_run` takes a `failDocWrite` flag that
  injects a storage failure during the document-row writes (after
  `ensure_model_meta` has committed, matching source line order 217-230).
-/

namespace MemoryIndex

/-! ## SHA-1 (`hashlib.sha1`), over byte lists, 32-bit words as `Nat` mod 2^32 -/

/-- Truncate to a 32-bit word. -/
def w32 (n : Nat) : Nat := n % 4294967296

/-- Rotate the 32-bit word `n` left by `b` bits. -/
def rotl (b n : Nat) : Nat := w32 ((n <<< b) ||| (n >>> (32 - b)))

/-- Bitwise NOT within 32 bits (argument below 2^32). -/
def bnot32 (n : Nat) : Nat := 4294967295 - n

/-- Big-endian byte encoding of `n` in `k` bytes. -/
def beBytes (k n : Nat) : List Nat :=
  (List.range k).map (fun i => (n >>> (8 * (k - 1 - i))) % 256)

/-- SHA-1 padding: append 0x80, zeros to 56 mod 64, and the 8-byte
big-endian bit length. -/
def sha1pad (msg : List Nat) : List Nat :=
  msg ++ 0x80 :: List.replicate ((119 - msg.length % 64) % 64) 0
      ++ beBytes 8 (msg.length * 8)

/-- Fold consecutive groups of 4 bytes into big-endian 32-bit words. -/
def chunks4 : List Nat → List Nat
  | b0 :: b1 :: b2 :: b3 :: rest => (((b0 * 256 + b1) * 256 + b2) * 256 + b3) :: chunks4 rest
  | _ => []

/-- Split a word list into blocks of 16 words. -/
def chunks16 : List Nat → List (List Nat)
  | [] => []
  | w :: ws => ((w :: ws).take 16) :: chunks16 ((w :: ws).drop 16)
termination_by ws => ws.length
decreasing_by simp [List.length_drop]; omega

/-- Extend the 16 message words of a block to the 80 round words. -/
def extendW (ws : List Nat) : List Nat :=
  (List.range 64).foldl
    (fun acc _ =>
      acc ++ [rotl 1 ((acc.getD (acc.length - 3) 0) ^^^ (acc.getD (acc.length - 8) 0)
        ^^^ (acc.getD (acc.length - 14) 0) ^^^ (acc.getD (acc.length - 16) 0))])
    ws

/-- One SHA-1 round on the five-word state. -/
def sha1Round (w : List Nat) (st : Nat × Nat × Nat × Nat × Nat) (i : Nat) :
    Nat × Nat × Nat × Nat × Nat :=
  match st with
  | (a, b, c, d, e) =>
    let f :=
      if i < 20 then (b &&& c) ||| (bnot32 b &&& d)
      else if i < 40 then b ^^^ c ^^^ d
      else if i < 60 then (b &&& c) ||| (b &&& d) ||| (c &&& d)
      else b ^^^ c ^^^ d
    let k :=
      if i < 20 then 0x5A827999
      else if i < 40 then 0x6ED9EBA1
      else if i < 60 then 0x8F1BBCDC
      else 0xCA62C1D6
    (w32 (rotl 5 a + f + e + k + w.getD i 0), a, rotl 30 b, c, d)

/-- Process one 16-word block, updating the running hash state. -/
def processChunk (h : Nat × Nat × Nat × Nat × Nat) (ws : List Nat) :
    Nat × Nat × Nat × Nat × Nat :=
  match h with
  | (h0, h1, h2, h3, h4) =>
    match (List.range 80).foldl (sha1Round (extendW ws)) (h0, h1, h2, h3, h4) with
    | (a, b, c, d, e) => (w32 (h0 + a), w32 (h1 + b), w32 (h2 + c), w32 (h3 + d), w32 (h4 + e))

/-- Lower-case hex digit. -/
def hexChar (n : Nat) : Char := if n < 10 then Char.ofNat (48 + n) else Char.ofNat (87 + n)

/-- Eight-hex-digit rendering of a 32-bit word. -/
def hex8 (n : Nat) : String :=
  String.mk ((List.range 8).map (fun i => hexChar ((n >>> (4 * (7 - i))) % 16)))

/-- Hex digest of SHA-1 over a byte list (`hashlib.sha1(...).hexdigest()`). -/
def sha1Hex (msg : List Nat) : String :=
  match (chunks16 (chunks4 (sha1pad msg))).foldl processChunk
      (0x67452301, 0xEFCDAB89, 0x98BADCFE, 0x10325476, 0xC3D2E1F0) with
  | (h0, h1, h2, h3, h4) => hex8 h0 ++ hex8 h1 ++ hex8 h2 ++ hex8 h3 ++ hex8 h4

/-- UTF-8 encoding of one character (`str.encode('utf-8')`, per code point). -/
def utf8EncodeChar (c : Char) : List Nat :=
  let n := c.toNat
  if n < 128 then [n]
  else if n < 2048 then [192 ||| (n >>> 6), 128 ||| (n &&& 63)]
  else if n < 65536 then
    [224 ||| (n >>> 12), 128 ||| ((n >>> 6) &&& 63), 128 ||| (n &&& 63)]
  else
    [240 ||| (n >>> 18), 128 ||| ((n >>> 12) &&& 63), 128 ||| ((n >>> 6) &&& 63),
      128 ||| (n &&& 63)]

/-- UTF-8 bytes of a string. -/
def strBytes (s : String) : List Nat :=
  s.data.foldr (fun c acc => utf8EncodeChar c ++ acc) []

/-- Byte string fed to the hash: `model` bytes, the `b'|'` separator (0x7c),
then `text` bytes — the three `sha.update` calls of `compute_hash`
(source lines 175-180). -/
def hashInput (text model : String) : List Nat :=
  strBytes model ++ 0x7c :: strBytes text

/-- Content hash of `(text, model)`: SHA-1 hex digest over
`model || '|' || text` (source `compute_hash`, lines 175-180). -/
def compute_hash (text model : String) : String :=
  sha1Hex (hashInput text model)

/-! ## Data model: documents table, meta table, process cache -/

/-- One row of the `documents` table (source schema lines 98-106). -/
structure Doc where
  id : String
  content_hash : String
  metadata : String
  vector : List Int
  updatedAt : Nat
deriving DecidableEq

/-- Durable SQLite state: `documents` rows in rowid order plus the `meta`
key-value table. -/
structure Store where
  documents : List Doc
  meta : List (String × String)
deriving DecidableEq

/-- A materialized index-cache entry (source `load_index_cache`):
version stamp, `(id, metadata)` rows, and the row-aligned vector matrix. -/
structure CacheEntry where
  version : Nat
  rows : List (String × String)
  matrix : List (List Int)
deriving DecidableEq

/-- The process-wide `INDEX_CACHE` dict, keyed by the store's db path. -/
abbrev Cache := List (String × CacheEntry)

/-- Python dict lookup `INDEX_CACHE.get(db_path)`. -/
def cacheGet (c : Cache) (p : String) : Option CacheEntry :=
  (c.find? (fun kv => kv.1 == p)).map (fun kv => kv.2)

/-- Python `INDEX_CACHE.pop(db_path, None)`. -/
def cacheErase (c : Cache) (p : String) : Cache :=
  c.filter (fun kv => kv.1 != p)

/-- Python dict assignment `INDEX_CACHE[db_path] = entry`. -/
def cacheSet (c : Cache) (p : String) (e : CacheEntry) : Cache :=
  (p, e) :: cacheErase c p

/-- Lookup in the `meta` table (`SELECT value FROM meta WHERE key = ?`). -/
def metaGet (m : List (String × String)) (k : String) : Option String :=
  (m.find? (fun kv => kv.1 == k)).map (fun kv => kv.2)

/-- `INSERT OR REPLACE INTO meta(key, value)`. -/
def metaSet (m : List (String × String)) (k v : String) : List (String × String) :=
  (k, v) :: m.filter (fun kv => kv.1 != k)

/-- `INSERT OR REPLACE INTO documents(...)`: the old row with the same id is
deleted and the new row gets a fresh (largest) rowid. -/
def putDocStore (s : Store) (d : Doc) : Store :=
  { s with documents := s.documents.filter (fun x => x.id != d.id) ++ [d] }

/-- Content hash stored for an id, if any
(`SELECT id, content_hash FROM documents WHERE id IN (...)`). -/
def lookupHash (docs : List Doc) (id : String) : Option String :=
  (docs.find? (fun d => d.id == id)).map (fun d => d.content_hash)

/-- `SELECT MAX(updated_at) FROM documents`: `none` when the table is empty. -/
def maxUpdated (docs : List Doc) : Option Nat :=
  match docs with
  | [] => none
  | _ => some (docs.foldl (fun a d => max a d.updatedAt) 0)

/-! ## Model descriptor bookkeeping -/

/-- Source `ensure_model_meta` (lines 135-154): first write records the
model and dimension; a differing recorded model deletes every document row
before the new descriptor is written; a matching model only refreshes the
dimension.  Each branch of the source ends in `conn.commit()`, so the
resulting state is durable on return. -/
def ensure_model_meta (st : Store) (model : String) (dimension : Nat) : Store :=
  match metaGet st.meta "model" with
  | none =>
      ⟨st.documents, metaSet (metaSet st.meta "model" model) "dimension" (toString dimension)⟩
  | some existing =>
      if existing ≠ model then
        ⟨[], metaSet (metaSet st.meta "model" model) "dimension" (toString dimension)⟩
      else
        ⟨st.documents, metaSet st.meta "dimension" (toString dimension)⟩

/-! ## Batch-size validation -/

/-- Value found under `payload.get('batchSize')`, as far as `int()` is
concerned: absent (`None`), a numeric value (ints, floats and numeric
strings all reach the clamping checks as this integer), or a value on
which `int()` raises `ValueError`/`TypeError`. -/
inductive BatchValue where
  | missing
  | num (n : Int)
  | nonNumeric (s : String)
deriving DecidableEq

def DEFAULT_BATCH_SIZE : Int := 8

def MAX_BATCH_SIZE : Int := 128

/-- Source `validate_batch_size` (lines 37-65).  Returns the batch size
actually used together with whether a warning was emitted on stderr.  The
source function always returns (warnings are printed, never raised). -/
def validate_batch_size (v : BatchValue) : Int × Bool :=
  match v with
  | .missing => (DEFAULT_BATCH_SIZE, false)
  | .nonNumeric _ => (DEFAULT_BATCH_SIZE, true)
  | .num n =>
    if n < 1 then (1, true)
    else if n > MAX_BATCH_SIZE then (MAX_BATCH_SIZE, true)
    else (n, false)

/-! ## Upsert -/

/-- One element of the `documents` payload list:
`{id, text, hash?, metadata?}`. -/
structure UpsertDoc where
  id : String
  text : String
  callerHash : Option String
  metadata : String
deriving DecidableEq

/-- Effective content hash: `doc.get('hash') or compute_hash(doc.get('text', ''), model_name)`
(source line 207) — an absent or empty caller hash falls back to the
computed one. -/
def effHash (model : String) (doc : UpsertDoc) : String :=
  match doc.callerHash with
  | some h => if h = "" then compute_hash doc.text model else h
  | none => compute_hash doc.text model

/-- One entry of the source's `to_embed` list:
`(doc['id'], doc.get('text', ''), content_hash, doc.get('metadata', {}))`. -/
structure EmbedItem where
  id : String
  text : String
  itemHash : String
  metadata : String
deriving DecidableEq

/-- The `to_embed` list (source lines 205-210): incoming documents whose
effective hash equals the stored hash for their id are skipped. -/
def changedItems (st : Store) (model : String) (docs : List UpsertDoc) : List EmbedItem :=
  docs.filterMap (fun doc =>
    let h := effHash model doc
    if lookupHash st.documents doc.id = some h then none
    else some ⟨doc.id, doc.text, h, doc.metadata⟩)

/-- Result of one `upsert` invocation: durable store, process cache,
response (`some k` for `{"status":"ok","updated":k}`, `none` for an error
response), and the list of texts sent to the embedding provider. -/
structure UpsertOut where
  store : Store
  cache : Cache
  updated : Option Nat
  sent : List String
deriving DecidableEq

/-- Source `command_upsert` (lines 183-233) with an injectable storage
failure.  Steps: parameter check; empty-documents early return; hash-based
change detection; early return when nothing changed; embed the changed
texts (the provider is called here, before any write); `ensure_model_meta`
(which commits the descriptor write and any model-switch deletion); then
the document-row writes followed by `conn.commit()` and the cache pop.
With `failDocWrite = true` a storage error is raised while writing the
document rows: the uncommitted row writes roll back when the connection
closes, leaving the state `ensure_model_meta` committed, and the cache pop
on line 231 is never reached. -/
def command_upsert_run (failDocWrite : Bool) (emb : String → List Int) (now : Nat)
    (docs : List UpsertDoc) (model path : String) (st : Store) (cache : Cache) : UpsertOut :=
  if path = "" ∨ model = "" then ⟨st, cache, none, []⟩
  else if docs.isEmpty then ⟨st, cache, some 0, []⟩
  else
    let toEmbed := changedItems st model docs
    if toEmbed.isEmpty then ⟨st, cache, some 0, []⟩
    else
      let texts := toEmbed.map (fun it => it.text)
      let embeddings := texts.map emb
      let dimension := (embeddings.headD []).length
      let st1 := ensure_model_meta st model dimension
      if failDocWrite then ⟨st1, cache, none, texts⟩
      else
        let st2 := toEmbed.foldl
          (fun s it => putDocStore s ⟨it.id, it.itemHash, it.metadata, emb it.text, now⟩) st1
        ⟨st2, cacheErase cache path, some toEmbed.length, texts⟩

/-! ## Index cache -/

/-- The cache entry built by the rebuild path of `load_index_cache`
(source lines 245-264): one scan of the documents table producing the
`(id, metadata)` row list and the stacked vector matrix (`np.vstack`),
with the empty table producing the zero-row matrix `np.zeros((0, 1))`
instead of an error; stamped with the freshly observed version. -/
def rebuildEntry (st : Store) : CacheEntry :=
  let rows := st.documents.map (fun d => (d.id, d.metadata))
  let vectors := st.documents.map (fun d => d.vector)
  let matrix := if vectors.isEmpty then [] else vectors
  ⟨(maxUpdated st.documents).getD 0, rows, matrix⟩

/-- Source `load_index_cache` (lines 236-266): read the current max
`updated_at` (0 for an empty table); return a cached entry unchanged when
its stamped version matches; otherwise rebuild, store the entry in the
process-wide cache under the store's path, and return it. -/
def load_index_cache (st : Store) (cache : Cache) (path : String) : CacheEntry × Cache :=
  let latest := (maxUpdated st.documents).getD 0
  match cacheGet cache path with
  | some c =>
      if c.version = latest then (c, cache)
      else (rebuildEntry st, cacheSet cache path (rebuildEntry st))
  | none => (rebuildEntry st, cacheSet cache path (rebuildEntry st))

/-! ## Search -/

/-- Dot product of two vectors (`matrix.dot(query_vec)` per row). -/
def dot (v w : List Int) : Int :=
  (List.zipWith (fun a b => a * b) v w).foldl (fun a b => a + b) 0

/-- Score of row `i` (`float(scores[idx])`; indices produced by argsort are
always in range, so the default is never read). -/
def scoreAt (scores : List Int) (i : Nat) : Int := scores.getD i 0

/-- Stable ascending insertion of index `i`: place `i` before the first
index with a strictly larger score, hence after all equal scores. -/
def insertAsc (scores : List Int) (i : Nat) : List Nat → List Nat
  | [] => [i]
  | j :: rest =>
      if scoreAt scores i < scoreAt scores j then i :: j :: rest
      else j :: insertAsc scores i rest

/-- Model of `np.argsort(scores)` (default kind) on the small score arrays
at issue: the indices `0, …, n-1` sorted ascending by score, equal scores
kept in index order (numpy's default sort runs stable insertion sort on
arrays below its 16-element threshold). -/
def argsortAsc (scores : List Int) : List Nat :=
  (List.range scores.length).foldl (fun acc i => insertAsc scores i acc) []

/-- `int(payload.get('limit') or 8)`: absent or falsy (0) gives 8. -/
def effLimit (limit : Option Int) : Int :=
  match limit with
  | none => 8
  | some n => if n = 0 then 8 else n

/-- `float(payload.get('minScore') or 0)`: absent or falsy (0) gives 0. -/
def effMinScore (minScore : Option Int) : Int :=
  match minScore with
  | none => 0
  | some n => if n = 0 then 0 else n

/-- One search result `{id, score, metadata}`. -/
structure SearchHit where
  id : String
  score : Int
  metadata : String
deriving DecidableEq

/-- Result row for cache index `idx`. -/
def mkHit (rows : List (String × String)) (scores : List Int) (idx : Nat) : SearchHit :=
  ⟨(rows.getD idx ("", "")).1, scoreAt scores idx, (rows.getD idx ("", "")).2⟩

/-- The result-building loop of `command_search` (source lines 298-310):
walk the ranked indices, skip scores below `min_score`, append, and break
once `len(results) >= limit`; `cnt` is `len(results)` so far. -/
def searchLoop (rows : List (String × String)) (scores : List Int)
    (minScore limit : Int) : Nat → List Nat → List SearchHit
  | _, [] => []
  | cnt, idx :: rest =>
      if scoreAt scores idx < minScore then searchLoop rows scores minScore limit cnt rest
      else if limit ≤ (cnt : Int) + 1 then [mkHit rows scores idx]
      else mkHit rows scores idx :: searchLoop rows scores minScore limit (cnt + 1) rest

/-- Source `command_search` (lines 269-312): parameter check (an empty
`query` string is falsy and rejected like a missing one); cache load;
empty-matrix early return with `results: []`; dot-product scores against
the cached matrix; ranking by reversed ascending argsort; filter and
truncate.  Returns the response (`some results` or `none` for an error)
together with the process cache as updated by the load. -/
def command_search (emb : String → List Int) (query : String)
    (limit minScore : Option Int) (path model : String) (st : Store) (cache : Cache) :
    Option (List SearchHit) × Cache :=
  if path = "" ∨ model = "" ∨ query = "" then (none, cache)
  else
    let lc := load_index_cache st cache path
    if lc.1.matrix.length = 0 then (some [], lc.2)
    else
      let scores := lc.1.matrix.map (fun v => dot v (emb query))
      let order := (argsortAsc scores).reverse
      (some (searchLoop lc.1.rows scores (effMinScore minScore) (effLimit limit) 0 order), lc.2)

/-! ## Stats -/

/-- The `stats` response fields that depend on the store. -/
structure StatsResp where
  documents : Nat
  lastUpdated : Option Nat
  model : Option String
  dimension : Option String
deriving DecidableEq

/-- Source `command_stats` (lines 315-335): document count, most recent
`updated_at`, and the recorded model/dimension from the meta table. -/
def command_stats (path model : String) (st : Store) : Option StatsResp :=
  if path = "" ∨ model = "" then none
  else some ⟨st.documents.length, maxUpdated st.documents,
    metaGet st.meta "model", metaGet st.meta "dimension"⟩

/-- Strict ranking order realized by the reversed argsort: index `i`
outranks nothing before it; `rankLT s i j` says row `i` sorts strictly
before row `j` in ascending order — smaller score, or equal score and
smaller cache position. -/
def rankLT (s : List Int) (i j : Nat) : Prop :=
  scoreAt s i < scoreAt s j ∨ (scoreAt s i = scoreAt s j ∧ i < j)

/-! ## Helper lemmas: association-list tables and the process cache -/

theorem find?_filter_of_imp {α : Type} (p q : α → Bool) (l : List α)
    (h : ∀ x, p x = true → q x = true) : (l.filter q).find? p = l.find? p := by
  induction l with
  | nil => rfl
  | cons a l ih =>
    cases hq : q a with
    | true =>
      cases hpa : p a with
      | true => simp [List.filter_cons, hq, List.find?, hpa]
      | false => simp [List.filter_cons, hq, List.find?, hpa, ih]
    | false =>
      have hpa : p a = false := by
        cases hpa : p a with
        | true => exact absurd (h a hpa) (by simp [hq])
        | false => rfl
      simp [List.filter_cons, hq, List.find?, hpa, ih]

theorem find?_append_of_none {α : Type} (p : α → Bool) {l₁ : List α} (l₂ : List α)
    (h : l₁.find? p = none) : (l₁ ++ l₂).find? p = l₂.find? p := by
  induction l₁ with
  | nil => rfl
  | cons a l ih =>
    cases hpa : p a with
    | true => simp [List.find?, hpa] at h
    | false =>
      simp only [List.find?, hpa] at h
      simpa [List.find?, hpa] using ih h

theorem metaGet_set_eq (m : List (String × String)) (k v : String) :
    metaGet (metaSet m k v) k = some v := by
  simp [metaGet, metaSet, List.find?]

theorem metaGet_set_ne (m : List (String × String)) (k v k' : String) (h : k' ≠ k) :
    metaGet (metaSet m k v) k' = metaGet m k' := by
  unfold metaGet metaSet
  have hk : (k == k') = false := by simpa using fun e => h e.symm
  rw [List.find?, hk]
  rw [find?_filter_of_imp]
  intro kv hkv
  simp only [beq_iff_eq] at hkv
  simp [hkv, h]

theorem cacheGet_set_eq (c : Cache) (p : String) (e : CacheEntry) :
    cacheGet (cacheSet c p e) p = some e := by
  simp [cacheGet, cacheSet, List.find?]

theorem cacheGet_erase_self (c : Cache) (p : String) :
    cacheGet (cacheErase c p) p = none := by
  unfold cacheGet cacheErase
  rw [List.find?_eq_none.mpr]
  · rfl
  · intro kv hkv
    have := (List.mem_filter.mp hkv).2
    simp only [bne_iff_ne, ne_eq, decide_eq_true_eq] at this
    simp [this]

theorem load_of_cacheGet_none (st : Store) (cache : Cache) (path : String)
    (h : cacheGet cache path = none) :
    load_index_cache st cache path = (rebuildEntry st, cacheSet cache path (rebuildEntry st)) := by
  simp [load_index_cache, h]

/-! ## Helper lemmas: model descriptor -/

theorem ensure_docs_sublist (st : Store) (model : String) (d : Nat) :
    (ensure_model_meta st model d).documents.Sublist st.documents := by
  unfold ensure_model_meta
  cases h : metaGet st.meta "model" with
  | none => simp
  | some ex =>
    by_cases hx : ex ≠ model
    · simp [hx, List.nil_sublist]
    · simp [hx]

theorem ensure_meta_model (st : Store) (model : String) (d : Nat) :
    metaGet (ensure_model_meta st model d).meta "model" = some model := by
  unfold ensure_model_meta
  split
  · show metaGet (metaSet (metaSet st.meta "model" model) "dimension" (toString d)) "model" =
      some model
    rw [metaGet_set_ne _ _ _ _ (by decide), metaGet_set_eq]
  · next ex h =>
    by_cases hx : ex ≠ model
    · rw [if_pos hx]
      show metaGet (metaSet (metaSet st.meta "model" model) "dimension" (toString d)) "model" =
        some model
      rw [metaGet_set_ne _ _ _ _ (by decide), metaGet_set_eq]
    · rw [if_neg hx]
      push_neg at hx
      show metaGet (metaSet st.meta "dimension" (toString d)) "model" = some model
      rw [metaGet_set_ne _ _ _ _ (by decide), h, hx]

theorem ensure_model_meta_fresh (st : Store) (model : String) (d : Nat)
    (h : metaGet st.meta "model" = none) :
    ensure_model_meta st model d =
      ⟨st.documents, metaSet (metaSet st.meta "model" model) "dimension" (toString d)⟩ := by
  simp [ensure_model_meta, h]

theorem ensure_model_meta_switch (st : Store) (model : String) (d : Nat) (ex : String)
    (h : metaGet st.meta "model" = some ex) (hne : ex ≠ model) :
    ensure_model_meta st model d =
      ⟨[], metaSet (metaSet st.meta "model" model) "dimension" (toString d)⟩ := by
  simp [ensure_model_meta, h, hne]

/-! ## Helper lemmas: upsert -/

theorem changedItems_single_new (st : Store) (model : String) (doc : UpsertDoc)
    (h : lookupHash st.documents doc.id = none) :
    changedItems st model [doc] = [⟨doc.id, doc.text, effHash model doc, doc.metadata⟩] := by
  simp [changedItems, h]

theorem changedItems_single_same (st : Store) (model : String) (doc : UpsertDoc)
    (h : lookupHash st.documents doc.id = some (effHash model doc)) :
    changedItems st model [doc] = [] := by
  simp [changedItems, h]

theorem upsert_single_new (emb : String → List Int) (now : Nat) (doc : UpsertDoc)
    (model path : String) (st : Store) (cache : Cache)
    (hp : path ≠ "") (hm : model ≠ "") (hnew : lookupHash st.documents doc.id = none) :
    command_upsert_run false emb now [doc] model path st cache =
      ⟨putDocStore (ensure_model_meta st model (emb doc.text).length)
          ⟨doc.id, effHash model doc, doc.metadata, emb doc.text, now⟩,
        cacheErase cache path, some 1, [doc.text]⟩ := by
  simp [command_upsert_run, hp, hm, changedItems_single_new st model doc hnew]

theorem upsert_single_same (emb : String → List Int) (now : Nat) (doc : UpsertDoc)
    (model path : String) (st : Store) (cache : Cache)
    (hp : path ≠ "") (hm : model ≠ "")
    (hsame : lookupHash st.documents doc.id = some (effHash model doc)) :
    command_upsert_run false emb now [doc] model path st cache = ⟨st, cache, some 0, []⟩ := by
  simp [command_upsert_run, hp, hm, changedItems_single_same st model doc hsame]

theorem lookupHash_putDoc_self (s : Store) (d : Doc) :
    lookupHash (putDocStore s d).documents d.id = some d.content_hash := by
  unfold lookupHash putDocStore
  rw [find?_append_of_none]
  · simp [List.find?]
  · rw [List.find?_eq_none.mpr]
    intro x hx
    have := (List.mem_filter.mp hx).2
    simp only [bne_iff_ne, ne_eq, decide_eq_true_eq] at this
    simp [this]

/-! ## Helper lemmas: ranking -/

theorem mem_insertAsc {s : List Int} {i k : Nat} {l : List Nat}
    (h : k ∈ insertAsc s i l) : k = i ∨ k ∈ l := by
  induction l with
  | nil => simpa [insertAsc] using h
  | cons j rest ih =>
    unfold insertAsc at h
    by_cases hc : scoreAt s i < scoreAt s j
    · rw [if_pos hc] at h
      simp only [List.mem_cons] at h ⊢
      tauto
    · rw [if_neg hc] at h
      simp only [List.mem_cons] at h ⊢
      rcases h with h | h
      · tauto
      · rcases ih h with h' | h' <;> tauto

theorem pairwise_insertAsc {s : List Int} {i : Nat} {l : List Nat}
    (hub : ∀ j ∈ l, j < i) (hp : l.Pairwise (rankLT s)) :
    (insertAsc s i l).Pairwise (rankLT s) := by
  induction l with
  | nil => simp [insertAsc]
  | cons j rest ih =>
    rcases List.pairwise_cons.mp hp with ⟨hj, hrest⟩
    unfold insertAsc
    by_cases hc : scoreAt s i < scoreAt s j
    · rw [if_pos hc]
      refine List.pairwise_cons.mpr ⟨?_, hp⟩
      intro k hk
      rcases List.mem_cons.mp hk with rfl | hk'
      · exact Or.inl hc
      · rcases hj k hk' with h' | ⟨h', _⟩
        · exact Or.inl (hc.trans h')
        · exact Or.inl (hc.trans_le (le_of_eq h'))
    · rw [if_neg hc]
      refine List.pairwise_cons.mpr
        ⟨?_, ih (fun m hm => hub m (List.mem_cons_of_mem j hm)) hrest⟩
      intro k hk
      rcases mem_insertAsc hk with rfl | hk'
      · rcases lt_or_eq_of_le (not_lt.mp hc) with h' | h'
        · exact Or.inl h'
        · exact Or.inr ⟨h', hub j (List.mem_cons_self j rest)⟩
      · exact hj k hk'

theorem pairwise_foldl_insertAsc (s : List Int) :
    ∀ (l acc : List Nat), acc.Pairwise (rankLT s) →
      (∀ j ∈ acc, ∀ i ∈ l, j < i) → l.Pairwise (· < ·) →
      (l.foldl (fun a i => insertAsc s i a) acc).Pairwise (rankLT s) := by
  intro l
  induction l with
  | nil => intro acc h _ _; simpa using h
  | cons i rest ih =>
    intro acc hacc hcross hl
    rcases List.pairwise_cons.mp hl with ⟨hi, hrest⟩
    simp only [List.foldl_cons]
    apply ih
    · exact pairwise_insertAsc (fun j hj => hcross j hj i (List.mem_cons_self i rest)) hacc
    · intro j hj i' hi'
      rcases mem_insertAsc hj with rfl | hj'
      · exact hi i' hi'
      · exact hcross j hj' i' (List.mem_cons_of_mem i hi')
    · exact hrest

theorem argsortAsc_pairwise (s : List Int) : (argsortAsc s).Pairwise (rankLT s) := by
  apply pairwise_foldl_insertAsc
  · exact List.Pairwise.nil
  · simp
  · exact List.pairwise_lt_range _

theorem order_pairwise (s : List Int) :
    ((argsortAsc s).reverse).Pairwise (fun i j => rankLT s j i) :=
  List.pairwise_reverse.mpr (argsortAsc_pairwise s)

theorem searchLoop_sublist (rows : List (String × String)) (scores : List Int)
    (minS lim : Int) : ∀ (l : List Nat) (cnt : Nat),
    (searchLoop rows scores minS lim cnt l).Sublist (l.map (mkHit rows scores)) := by
  intro l
  induction l with
  | nil => intro cnt; simp [searchLoop]
  | cons idx rest ih =>
    intro cnt
    unfold searchLoop
    by_cases h1 : scoreAt scores idx < minS
    · rw [if_pos h1]
      exact List.Sublist.cons _ (ih cnt)
    · rw [if_neg h1]
      by_cases h2 : lim ≤ (cnt : Int) + 1
      · rw [if_pos h2]
        exact List.Sublist.cons₂ _ (List.nil_sublist _)
      · rw [if_neg h2]
        exact List.Sublist.cons₂ _ (ih (cnt + 1))

theorem searchLoop_sorted (rows : List (String × String)) (scores : List Int)
    (minS lim : Int) (l : List Nat) (cnt : Nat)
    (hl : l.Pairwise (fun i j => rankLT scores j i)) :
    (searchLoop rows scores minS lim cnt l).Pairwise (fun a b => b.score ≤ a.score) := by
  have hmap : (l.map (mkHit rows scores)).Pairwise (fun a b => b.score ≤ a.score) := by
    rw [List.pairwise_map]
    refine hl.imp ?_
    intro i j h
    rcases h with h | ⟨h, _⟩
    · exact le_of_lt h
    · exact le_of_eq h
  exact hmap.sublist (searchLoop_sublist rows scores minS lim l cnt)

theorem searchLoop_length (rows : List (String × String)) (scores : List Int)
    (minS lim : Int) : ∀ (l : List Nat) (cnt : Nat), (cnt : Int) < lim →
    ((searchLoop rows scores minS lim cnt l).length : Int) ≤ lim - cnt := by
  intro l
  induction l with
  | nil => intro cnt h; simp [searchLoop]; omega
  | cons idx rest ih =>
    intro cnt h
    unfold searchLoop
    by_cases h1 : scoreAt scores idx < minS
    · rw [if_pos h1]
      exact ih cnt h
    · rw [if_neg h1]
      by_cases h2 : lim ≤ (cnt : Int) + 1
      · rw [if_pos h2]
        simp only [List.length_cons, List.length_nil]
        omega
      · rw [if_neg h2]
        have := ih (cnt + 1) (by push_cast; omega)
        simp only [List.length_cons]
        push_cast at this ⊢
        omega

theorem rebuildEntry_matrix (st : Store) :
    (rebuildEntry st).matrix = st.documents.map (fun d => d.vector) := by
  unfold rebuildEntry
  by_cases h : (st.documents.map (fun d => d.vector)).isEmpty
  · have he := List.isEmpty_iff.mp h
    simp [h, he]
  · simp [h]

/-! ## Claims -/

/-- C8 (amended): the content hash is a pure deterministic function of the
byte string `model || '|' || text` — any two calls whose concatenated hash
inputs coincide yield an identical hash.  Distinct `(model, text)` pairs
are not guaranteed distinct hashes, because distinct pairs can share the
concatenation when the model identifier itself contains `'|'`. -/
theorem hash_depends_on_joined_bytes (m1 t1 m2 t2 : String)
    (h : hashInput t1 m1 = hashInput t2 m2) :
    compute_hash t1 m1 = compute_hash t2 m2 :=
  congrArg sha1Hex h

theorem hash_depends_on_joined_bytes_witness :
    compute_hash "y" "x|" = compute_hash "|y" "x" :=
  hash_depends_on_joined_bytes "x|" "y" "x" "|y" (by decide)

/-- C8 counterexample: the input pairs `(model, text) = ("a|b", "c")` and
`("a", "b|c")` differ, yet their hashes are equal, because both hash the
same byte string `"a|b|c"`; this refutes the claim that any two pairs
differing in model or text receive different hashes. -/
theorem hash_collision_cex :
    (("a|b" : String), ("c" : String)) ≠ (("a" : String), ("b|c" : String)) ∧
    compute_hash "c" "a|b" = compute_hash "b|c" "a" :=
  ⟨by decide, congrArg sha1Hex (by decide)⟩

/-- C9: batch-size validation always yields a value in `[1, 128]` and
never aborts the upsert (it is a total function into this range): a
missing value yields the default 8 without warning, a non-numeric value
yields 8 with a warning, a numeric value below 1 yields 1 with a warning,
one above 128 yields 128 with a warning, and a numeric value already in
`[1, 128]` is returned unchanged without warning. -/
theorem validate_batch_size_spec (v : BatchValue) :
    1 ≤ (validate_batch_size v).1 ∧ (validate_batch_size v).1 ≤ 128 ∧
    (v = .missing → validate_batch_size v = (8, false)) ∧
    (∀ s, v = .nonNumeric s → validate_batch_size v = (8, true)) ∧
    (∀ n, v = .num n → n < 1 → validate_batch_size v = (1, true)) ∧
    (∀ n, v = .num n → 128 < n → validate_batch_size v = (128, true)) ∧
    (∀ n, v = .num n → 1 ≤ n → n ≤ 128 → validate_batch_size v = (n, false)) := by
  cases v with
  | missing =>
    refine ⟨by decide, by decide, fun _ => rfl, ?_, ?_, ?_, ?_⟩
    · intro s h; exact BatchValue.noConfusion h
    · intro n h; exact BatchValue.noConfusion h
    · intro n h; exact BatchValue.noConfusion h
    · intro n h; exact BatchValue.noConfusion h
  | nonNumeric s =>
    refine ⟨show (1 : Int) ≤ 8 by decide, show (8 : Int) ≤ 128 by decide, ?_,
      fun s' _ => rfl, ?_, ?_, ?_⟩
    · intro h; exact BatchValue.noConfusion h
    · intro n h; exact BatchValue.noConfusion h
    · intro n h; exact BatchValue.noConfusion h
    · intro n h; exact BatchValue.noConfusion h
  | num n =>
    refine ⟨?_, ?_, ?_, ?_, ?_, ?_, ?_⟩
    · simp only [validate_batch_size, MAX_BATCH_SIZE]
      split_ifs with h1 h2
      · norm_num
      · norm_num
      · norm_num; omega
    · simp only [validate_batch_size, MAX_BATCH_SIZE]
      split_ifs with h1 h2
      · norm_num
      · norm_num
      · norm_num; omega
    · intro h; exact BatchValue.noConfusion h
    · intro s h; exact BatchValue.noConfusion h
    · intro n' h hlt
      cases h
      simp only [validate_batch_size]
      rw [if_pos hlt]
    · intro n' h hgt
      cases h
      simp only [validate_batch_size, MAX_BATCH_SIZE]
      rw [if_neg (by omega), if_pos (by omega)]
    · intro n' h h1 h2
      cases h
      simp only [validate_batch_size, MAX_BATCH_SIZE]
      rw [if_neg (by omega), if_neg (by omega)]

theorem validate_batch_size_spec_witness :
    validate_batch_size (.num 5) = (5, false) :=
  (validate_batch_size_spec (.num 5)).2.2.2.2.2.2 5 rfl (by decide) (by decide)

/-- C4: the cache loader returns an entry whose version equals the max
`updated_at` read at the start of the call, and leaves that entry stored
in the process-wide cache under the store's path.  A cached entry whose
stamped version equals the current max is returned unchanged with the
cache untouched; otherwise the documents are scanned once into a row list
and a row-aligned matrix (an empty store producing a zero-row matrix, not
an error), the entry is stamped with the freshly observed version and
stored in the cache. -/
theorem load_index_cache_spec (st : Store) (cache : Cache) (path : String) :
    (load_index_cache st cache path).1.version = (maxUpdated st.documents).getD 0 ∧
    cacheGet (load_index_cache st cache path).2 path = some (load_index_cache st cache path).1 ∧
    (∀ c0, cacheGet cache path = some c0 → c0.version = (maxUpdated st.documents).getD 0 →
      load_index_cache st cache path = (c0, cache)) ∧
    ((∀ c0, cacheGet cache path = some c0 → c0.version ≠ (maxUpdated st.documents).getD 0) →
      load_index_cache st cache path =
        (rebuildEntry st, cacheSet cache path (rebuildEntry st)) ∧
      (rebuildEntry st).rows = st.documents.map (fun d => (d.id, d.metadata)) ∧
      (rebuildEntry st).matrix = st.documents.map (fun d => d.vector) ∧
      (st.documents = [] → (rebuildEntry st).matrix = [])) := by
  refine ⟨?_, ?_, ?_, ?_⟩
  · unfold load_index_cache
    split
    · next c heq =>
      by_cases hv : c.version = (maxUpdated st.documents).getD 0
      · rw [if_pos hv]; exact hv
      · rw [if_neg hv]; rfl
    · rfl
  · unfold load_index_cache
    split
    · next c heq =>
      by_cases hv : c.version = (maxUpdated st.documents).getD 0
      · rw [if_pos hv]; exact heq
      · rw [if_neg hv]; exact cacheGet_set_eq _ _ _
    · exact cacheGet_set_eq _ _ _
  · intro c0 hc hv
    unfold load_index_cache
    simp only [hc]
    rw [if_pos hv]
  · intro hmiss
    refine ⟨?_, rfl, rebuildEntry_matrix st, ?_⟩
    · unfold load_index_cache
      cases hc : cacheGet cache path with
      | none => simp only [hc]
      | some c0 =>
        simp only [hc]
        rw [if_neg (hmiss c0 hc)]
    · intro hd
      rw [rebuildEntry_matrix, hd]
      rfl

theorem load_index_cache_spec_witness :
    load_index_cache ⟨[⟨"a", "h", "m", [1], 4⟩], []⟩ [("p", ⟨4, [("a", "m")], [[1]]⟩)] "p" =
      (⟨4, [("a", "m")], [[1]]⟩, [("p", ⟨4, [("a", "m")], [[1]]⟩)]) :=
  (load_index_cache_spec ⟨[⟨"a", "h", "m", [1], 4⟩], []⟩
    [("p", ⟨4, [("a", "m")], [[1]]⟩)] "p").2.2.1 ⟨4, [("a", "m")], [[1]]⟩ (by decide) (by decide)

/-- C3: a successful upsert that embeds and writes at least one document
(`updated = k ≥ 1`) evicts the process-cache entry for the store's path,
so the next cache load rebuilds from the persistent store (reflecting the
new rows); an upsert that reports `updated = 0` leaves the cache — and the
store — exactly as they were. -/
theorem upsert_cache_invalidation (emb : String → List Int) (now : Nat)
    (docs : List UpsertDoc) (model path : String) (st : Store) (cache : Cache) :
    ((command_upsert_run false emb now docs model path st cache).updated = some 0 →
      (command_upsert_run false emb now docs model path st cache).cache = cache ∧
      (command_upsert_run false emb now docs model path st cache).store = st) ∧
    (∀ k, (command_upsert_run false emb now docs model path st cache).updated = some k →
      1 ≤ k →
      cacheGet (command_upsert_run false emb now docs model path st cache).cache path = none ∧
      load_index_cache (command_upsert_run false emb now docs model path st cache).store
          (command_upsert_run false emb now docs model path st cache).cache path =
        (rebuildEntry (command_upsert_run false emb now docs model path st cache).store,
          cacheSet (command_upsert_run false emb now docs model path st cache).cache path
            (rebuildEntry (command_upsert_run false emb now docs model path st cache).store))) := by
  by_cases hpm : path = "" ∨ model = ""
  · constructor
    · intro h; simp [command_upsert_run, hpm] at h
    · intro k hk; simp [command_upsert_run, hpm] at hk
  · by_cases hd : docs.isEmpty
    · constructor
      · intro _; simp [command_upsert_run, hpm, hd]
      · intro k hk hk1
        simp [command_upsert_run, hpm, hd] at hk
        omega
    · by_cases he : (changedItems st model docs).isEmpty
      · constructor
        · intro _; simp [command_upsert_run, hpm, hd, he]
        · intro k hk hk1
          simp [command_upsert_run, hpm, hd, he] at hk
          omega
      · constructor
        · intro h
          simp [command_upsert_run, hpm, hd, he] at h
          rw [List.isEmpty_iff] at he
          exact absurd h he
        · intro k hk hk1
          refine ⟨?_, ?_⟩
          · simp only [command_upsert_run, if_neg hpm]
            simp [hd, he, cacheGet_erase_self]
          · apply load_of_cacheGet_none
            simp only [command_upsert_run, if_neg hpm]
            simp [hd, he, cacheGet_erase_self]

theorem upsert_cache_invalidation_witness :
    cacheGet (command_upsert_run false (fun _ => [1]) 3 [⟨"a", "t", none, "md"⟩] "m" "p"
        ⟨[], []⟩ [("p", ⟨0, [], []⟩)]).cache "p" = none :=
  ((upsert_cache_invalidation (fun _ => [1]) 3 [⟨"a", "t", none, "md"⟩] "m" "p"
    ⟨[], []⟩ [("p", ⟨0, [], []⟩)]).2 1 (by decide) (by decide)).1

/-- C7: in every upsert invocation the texts sent to the embedding
provider are exactly the texts of the changed or new documents (one entry
per changed document — at most one embedding per changed document per
invocation), documents whose effective hash matches the stored one are
excluded and do not count toward the reported `updated` total, and when no
document remains the provider receives nothing and `updated = 0`. -/
theorem upsert_embeds_changed_once (emb : String → List Int) (now : Nat)
    (docs : List UpsertDoc) (model path : String) (st : Store) (cache : Cache)
    (hp : path ≠ "") (hm : model ≠ "") :
    (command_upsert_run false emb now docs model path st cache).sent =
      (changedItems st model docs).map (fun it => it.text) ∧
    (command_upsert_run false emb now docs model path st cache).updated =
      some (changedItems st model docs).length ∧
    (changedItems st model docs = [] →
      (command_upsert_run false emb now docs model path st cache).sent = [] ∧
      (command_upsert_run false emb now docs model path st cache).updated = some 0) := by
  have hpm : ¬(path = "" ∨ model = "") := fun h => h.elim hp hm
  by_cases hd : docs.isEmpty
  · have hde := List.isEmpty_iff.mp hd
    subst hde
    refine ⟨?_, ?_, fun _ => ⟨?_, ?_⟩⟩ <;> simp [command_upsert_run, hpm, changedItems]
  · by_cases he : (changedItems st model docs).isEmpty
    · have hee := List.isEmpty_iff.mp he
      refine ⟨?_, ?_, fun _ => ⟨?_, ?_⟩⟩ <;> simp [command_upsert_run, hpm, hd, he, hee]
    · refine ⟨?_, ?_, fun hee => ?_⟩
      · simp [command_upsert_run, hpm, hd, he]
      · simp [command_upsert_run, hpm, hd, he]
      · rw [hee] at he
        simp at he

theorem upsert_embeds_changed_once_witness :
    (command_upsert_run false (fun _ => [1]) 0 [⟨"a", "t", none, "md"⟩] "m" "p"
        ⟨[], []⟩ []).sent = ["t"] :=
  ((upsert_embeds_changed_once (fun _ => [1]) 0 [⟨"a", "t", none, "md"⟩] "m" "p"
    ⟨[], []⟩ [] (by decide) (by decide)).1).trans (by decide)

/-- C1 (amended): the document-row writes of an upsert are atomic as a
batch — a storage failure while writing them leaves no new document row
visible — but the invocation is not atomic as a whole: the model
descriptor update (and any model-switch deletion of existing rows) is
committed before the document rows, so after such a failure the store
still shows the freshly written model descriptor, the surviving documents
are a sublist of the previous ones (none added), and the process cache is
left untouched (the eviction is never reached). -/
theorem upsert_failure_keeps_descriptor (emb : String → List Int) (now : Nat)
    (docs : List UpsertDoc) (model path : String) (st : Store) (cache : Cache)
    (hp : path ≠ "") (hm : model ≠ "")
    (herr : (command_upsert_run true emb now docs model path st cache).updated = none) :
    (command_upsert_run true emb now docs model path st cache).store.documents.Sublist
      st.documents ∧
    metaGet (command_upsert_run true emb now docs model path st cache).store.meta "model" =
      some model ∧
    (command_upsert_run true emb now docs model path st cache).cache = cache := by
  have hpm : ¬(path = "" ∨ model = "") := fun h => h.elim hp hm
  by_cases hd : docs.isEmpty
  · simp [command_upsert_run, hpm, hd] at herr
  · by_cases he : (changedItems st model docs).isEmpty
    · simp [command_upsert_run, hpm, hd, he] at herr
    · refine ⟨?_, ?_, ?_⟩ <;> simp only [command_upsert_run, if_neg hpm] <;>
        simp [hd, he, ensure_docs_sublist, ensure_meta_model]

theorem upsert_failure_keeps_descriptor_witness :
    (command_upsert_run true (fun _ => [5]) 2 [⟨"y", "t", none, "md"⟩] "B" "p"
        ⟨[⟨"x", "h", "m", [1], 1⟩], [("model", "A"), ("dimension", "1")]⟩ []).store.documents.Sublist
      [⟨"x", "h", "m", [1], 1⟩] ∧
    metaGet (command_upsert_run true (fun _ => [5]) 2 [⟨"y", "t", none, "md"⟩] "B" "p"
        ⟨[⟨"x", "h", "m", [1], 1⟩], [("model", "A"), ("dimension", "1")]⟩ []).store.meta "model" =
      some "B" ∧
    (command_upsert_run true (fun _ => [5]) 2 [⟨"y", "t", none, "md"⟩] "B" "p"
⟨[⟨"x", "h", "m", [1], 1⟩], [("model", "A"), ("dimension", "1")]⟩ []).cache = [] :=
  upsert_failure_keeps_descriptor (fun _ => [5]) 2 [⟨"y", "t", none, "md"⟩] "B" "p"
    ⟨[⟨"x", "h", "m", [1], 1⟩], [("model", "A"), ("dimension", "1")]⟩ []
    (by decide) (by decide) (by decide)

/-- C1 counterexample: an upsert of document `d2` under model `B` against
a store holding `d1` under model `A` that fails while writing the document
rows reports an error, yet the store afterward is not the store from
before the invocation — the model-switch deletion has already erased every
document row (the descriptor commit happened before the row writes) —
refuting the claim that a failed upsert leaves the store unchanged. -/
theorem upsert_failure_not_atomic_cex :
    (command_upsert_run true (fun _ => [5]) 9 [⟨"d2", "hello", none, "md"⟩] "B" "p"
        ⟨[⟨"d1", "hA", "m1", [1], 1⟩], [("model", "A"), ("dimension", "1")]⟩ []).updated =
      none ∧
    (command_upsert_run true (fun _ => [5]) 9 [⟨"d2", "hello", none, "md"⟩] "B" "p"
        ⟨[⟨"d1", "hA", "m1", [1], 1⟩], [("model", "A"), ("dimension", "1")]⟩ []).store.documents =
      [] ∧
    (command_upsert_run true (fun _ => [5]) 9 [⟨"d2", "hello", none, "md"⟩] "B" "p"
        ⟨[⟨"d1", "hA", "m1", [1], 1⟩], [("model", "A"), ("dimension", "1")]⟩ []).store ≠
      ⟨[⟨"d1", "hA", "m1", [1], 1⟩], [("model", "A"), ("dimension", "1")]⟩ :=
  ⟨by decide, by decide, by decide⟩

/-- C10: search defaults `limit` and `minScore` on falsy values, not only
on missing ones — `limit = 0` behaves exactly like an omitted limit (at
most 8 results, not 0) and `minScore = 0` behaves exactly like an omitted
minScore — while any non-zero value is used as given. -/
theorem search_falsy_defaults (emb : String → List Int) (query path model : String)
    (st : Store) (cache : Cache) (lim ms : Option Int) :
    command_search emb query (some 0) ms path model st cache =
      command_search emb query none ms path model st cache ∧
    command_search emb query lim (some 0) path model st cache =
      command_search emb query lim none path model st cache ∧
    (∀ rs, (command_search emb query (some 0) ms path model st cache).1 = some rs →
      rs.length ≤ 8) ∧
    (∀ n : Int, n ≠ 0 → effLimit (some n) = n ∧ effMinScore (some n) = n) := by
  refine ⟨rfl, rfl, ?_, ?_⟩
  · intro rs h
    simp only [command_search] at h
    split at h
    · simp at h
    · split at h
      · simp only [Prod.fst] at h
        obtain rfl : rs = [] := by simpa using h.symm
        simp
      · simp only [Prod.fst] at h
        obtain rfl := (Option.some_inj.mp h).symm
        have hb := searchLoop_length (load_index_cache st cache path).1.rows
          (List.map (fun v => dot v (emb query)) (load_index_cache st cache path).1.matrix)
          (effMinScore ms) (effLimit (some 0))
          ((argsortAsc (List.map (fun v => dot v (emb query))
            (load_index_cache st cache path).1.matrix)).reverse) 0 (by norm_num [effLimit])
        simp only [effLimit] at hb
        norm_num at hb
        exact_mod_cast hb
  · intro n hn
    exact ⟨by simp [effLimit, hn], by simp [effMinScore, hn]⟩

theorem search_falsy_defaults_witness :
    ([⟨"a", 2, "m"⟩] : List SearchHit).length ≤ 8 ∧ effLimit (some 5) = 5 :=
  ⟨(search_falsy_defaults (fun _ => [1]) "q" "p" "mdl" ⟨[⟨"a", "h", "m", [2], 3⟩], []⟩ []
      none none).2.2.1 [⟨"a", 2, "m"⟩] (by decide),
   ((search_falsy_defaults (fun _ => [1]) "q" "p" "mdl" ⟨[], []⟩ [] none none).2.2.2 5
      (by decide)).1⟩

/-- C2 (amended): every successful search returns results sorted in
descending order of score, but rows with equal scores appear in the
reverse of the order in which they were materialized into the cache: the
ranking permutation is the reversal of a stable ascending argsort, so
along the returned order an earlier row either has a strictly greater
score or an equal score and a strictly greater cache position. -/
theorem search_sorted_desc_ties_reversed (emb : String → List Int) (query : String)
    (limit minScore : Option Int) (path model : String) (st : Store) (cache : Cache)
    (rs : List SearchHit)
    (h : (command_search emb query limit minScore path model st cache).1 = some rs) :
    rs.Pairwise (fun a b => b.score ≤ a.score) ∧
    ∀ s : List Int, ((argsortAsc s).reverse).Pairwise (fun i j => rankLT s j i) := by
  refine ⟨?_, order_pairwise⟩
  simp only [command_search] at h
  split at h
  · simp at h
  · split at h
    · simp only [Prod.fst] at h
      obtain rfl : rs = [] := by simpa using h.symm
      exact List.Pairwise.nil
    · simp only [Prod.fst] at h
      obtain rfl := (Option.some_inj.mp h).symm
      exact searchLoop_sorted _ _ _ _ _ _ (order_pairwise _)

theorem search_sorted_desc_ties_reversed_witness :
    ([⟨"a", 2, "m"⟩] : List SearchHit).Pairwise (fun a b => b.score ≤ a.score) :=
  (search_sorted_desc_ties_reversed (fun _ => [1]) "q" none none "p" "mdl"
    ⟨[⟨"a", "h", "m", [2], 3⟩], []⟩ [] [⟨"a", 2, "m"⟩] (by decide)).1

/-- C2 counterexample: a store with two documents `d0`, `d1` (materialized
into the cache in that order) whose vectors both score 1 against the query
returns the results in the order `d1, d0` — the reverse of the cache
materialization order — refuting the claim that equal-scored rows keep
their cache order. -/
theorem search_tie_order_cex :
    (load_index_cache ⟨[⟨"d0", "h0", "m0", [1, 0], 1⟩, ⟨"d1", "h1", "m1", [1, 0], 2⟩], []⟩ []
        "p").1.rows = [("d0", "m0"), ("d1", "m1")] ∧
    (load_index_cache ⟨[⟨"d0", "h0", "m0", [1, 0], 1⟩, ⟨"d1", "h1", "m1", [1, 0], 2⟩], []⟩ []
        "p").1.matrix.map (fun v => dot v [1, 0]) = [1, 1] ∧
    (command_search (fun _ => [1, 0]) "q" none none "p" "m"
        ⟨[⟨"d0", "h0", "m0", [1, 0], 1⟩, ⟨"d1", "h1", "m1", [1, 0], 2⟩], []⟩ []).1 =
      some [⟨"d1", 1, "m1"⟩, ⟨"d0", 1, "m0"⟩] ∧
    (["d1", "d0"] : List String) ≠ ["d0", "d1"] :=
  ⟨by decide, by decide, by decide, by decide⟩

/-- C5: writing the model descriptor with a model different from the
recorded one deletes every document row, and consequently upserting `d1`
under model `A` into a fresh store and then upserting `d2` under model `B`
leaves the store containing exactly the `d2` row, with `stats` reporting
model `B`. -/
theorem model_switch_resets_store (emb1 emb2 : String → List Int) (t1 t2 : Nat)
    (path A B : String) (d1 d2 : UpsertDoc) (cache : Cache)
    (hp : path ≠ "") (hA : A ≠ "") (hB : B ≠ "") (hAB : A ≠ B) (hid : d2.id ≠ d1.id) :
    (∀ (st : Store) (m : String) (dim : Nat) (ex : String),
      metaGet st.meta "model" = some ex → ex ≠ m →
      (ensure_model_meta st m dim).documents = []) ∧
    (command_upsert_run false emb1 t1 [d1] A path ⟨[], []⟩ cache).updated = some 1 ∧
    (command_upsert_run false emb2 t2 [d2] B path
        (command_upsert_run false emb1 t1 [d1] A path ⟨[], []⟩ cache).store
        (command_upsert_run false emb1 t1 [d1] A path ⟨[], []⟩ cache).cache).updated =
      some 1 ∧
    (command_upsert_run false emb2 t2 [d2] B path
        (command_upsert_run false emb1 t1 [d1] A path ⟨[], []⟩ cache).store
        (command_upsert_run false emb1 t1 [d1] A path ⟨[], []⟩ cache).cache).store.documents.map
      (fun d => d.id) = [d2.id] ∧
    (command_stats path B (command_upsert_run false emb2 t2 [d2] B path
        (command_upsert_run false emb1 t1 [d1] A path ⟨[], []⟩ cache).store
        (command_upsert_run false emb1 t1 [d1] A path ⟨[], []⟩ cache).cache).store).map
      (fun r => r.model) = some (some B) := by
  have hnew1 : lookupHash (⟨[], []⟩ : Store).documents d1.id = none := rfl
  have h1 := upsert_single_new emb1 t1 d1 A path ⟨[], []⟩ cache hp hA hnew1
  have hst1 : (command_upsert_run false emb1 t1 [d1] A path ⟨[], []⟩ cache).store =
      ⟨[⟨d1.id, effHash A d1, d1.metadata, emb1 d1.text, t1⟩],
        metaSet (metaSet [] "model" A) "dimension" (toString (emb1 d1.text).length)⟩ := by
    rw [h1]
    show putDocStore (ensure_model_meta ⟨[], []⟩ A (emb1 d1.text).length)
      ⟨d1.id, effHash A d1, d1.metadata, emb1 d1.text, t1⟩ = _
    rw [ensure_model_meta_fresh ⟨[], []⟩ A (emb1 d1.text).length rfl]
    rfl
  have hnew2 : lookupHash (command_upsert_run false emb1 t1 [d1] A path
      ⟨[], []⟩ cache).store.documents d2.id = none := by
    rw [hst1]
    show lookupHash [⟨d1.id, effHash A d1, d1.metadata, emb1 d1.text, t1⟩] d2.id = none
    have hb : (d1.id == d2.id) = false := beq_eq_false_iff_ne.mpr (Ne.symm hid)
    simp [lookupHash, List.find?, hb]
  have h2 := upsert_single_new emb2 t2 d2 B path
    (command_upsert_run false emb1 t1 [d1] A path ⟨[], []⟩ cache).store
    (command_upsert_run false emb1 t1 [d1] A path ⟨[], []⟩ cache).cache hp hB hnew2
  have hmeta1 : metaGet (command_upsert_run false emb1 t1 [d1] A path
      ⟨[], []⟩ cache).store.meta "model" = some A := by
    rw [hst1]
    show metaGet (metaSet (metaSet [] "model" A) "dimension"
      (toString (emb1 d1.text).length)) "model" = some A
    rw [metaGet_set_ne _ _ _ _ (by decide), metaGet_set_eq]
  have hsw := ensure_model_meta_switch
    (command_upsert_run false emb1 t1 [d1] A path ⟨[], []⟩ cache).store B
    (emb2 d2.text).length A hmeta1 hAB
  have hst2 : (command_upsert_run false emb2 t2 [d2] B path
      (command_upsert_run false emb1 t1 [d1] A path ⟨[], []⟩ cache).store
      (command_upsert_run false emb1 t1 [d1] A path ⟨[], []⟩ cache).cache).store =
      ⟨[⟨d2.id, effHash B d2, d2.metadata, emb2 d2.text, t2⟩],
        metaSet (metaSet (command_upsert_run false emb1 t1 [d1] A path
          ⟨[], []⟩ cache).store.meta "model" B) "dimension"
          (toString (emb2 d2.text).length)⟩ := by
    rw [h2]
    show putDocStore (ensure_model_meta _ B (emb2 d2.text).length)
      ⟨d2.id, effHash B d2, d2.metadata, emb2 d2.text, t2⟩ = _
    rw [hsw]
    rfl
  refine ⟨?_, ?_, ?_, ?_, ?_⟩
  · intro st m dim ex h hne
    rw [ensure_model_meta_switch st m dim ex h hne]
  · rw [h1]
  · rw [h2]
  · rw [hst2]
    rfl
  · have hms : metaGet (command_upsert_run false emb2 t2 [d2] B path
        (command_upsert_run false emb1 t1 [d1] A path ⟨[], []⟩ cache).store
        (command_upsert_run false emb1 t1 [d1] A path ⟨[], []⟩ cache).cache).store.meta
        "model" = some B := by
      rw [hst2]
      show metaGet (metaSet (metaSet _ "model" B) "dimension"
        (toString (emb2 d2.text).length)) "model" = some B
      rw [metaGet_set_ne _ _ _ _ (by decide), metaGet_set_eq]
    have hpm : ¬(path = "" ∨ B = "") := fun h => h.elim hp hB
    simp [command_stats, hpm, hms]

theorem model_switch_resets_store_witness :
    (command_upsert_run false (fun _ => [2]) 7 [⟨"d2", "two", none, "m2"⟩] "B" "p"
        (command_upsert_run false (fun _ => [1]) 5 [⟨"d1", "one", none, "m1"⟩] "A" "p"
          ⟨[], []⟩ []).store
        (command_upsert_run false (fun _ => [1]) 5 [⟨"d1", "one", none, "m1"⟩] "A" "p"
          ⟨[], []⟩ []).cache).store.documents.map (fun d => d.id) = ["d2"] :=
  (model_switch_resets_store (fun _ => [1]) (fun _ => [2]) 5 7 "p" "A" "B"
    ⟨"d1", "one", none, "m1"⟩ ⟨"d2", "two", none, "m2"⟩ []
    (by decide) (by decide) (by decide) (by decide) (by decide)).2.2.2.1

/-- C6: upsert is idempotent per `(id, text, model)`: starting from a
store without the document and with no caller-supplied hash, the first
upsert of a single `(id, text)` under a model reports `updated = 1`, and
repeating the identical upsert reports `updated = 0` while leaving the
store (and cache) exactly as after the first invocation. -/
theorem upsert_idempotent (emb : String → List Int) (t1 t2 : Nat) (doc : UpsertDoc)
    (model path : String) (st : Store) (cache : Cache)
    (hp : path ≠ "") (hm : model ≠ "") (_hh : doc.callerHash = none)
    (hnew : lookupHash st.documents doc.id = none) :
    (command_upsert_run false emb t1 [doc] model path st cache).updated = some 1 ∧
    command_upsert_run false emb t2 [doc] model path
        (command_upsert_run false emb t1 [doc] model path st cache).store
        (command_upsert_run false emb t1 [doc] model path st cache).cache =
      ⟨(command_upsert_run false emb t1 [doc] model path st cache).store,
        (command_upsert_run false emb t1 [doc] model path st cache).cache, some 0, []⟩ := by
  have h1 := upsert_single_new emb t1 doc model path st cache hp hm hnew
  have hsame : lookupHash (command_upsert_run false emb t1 [doc] model path
      st cache).store.documents doc.id = some (effHash model doc) := by
    rw [h1]
    exact lookupHash_putDoc_self _ ⟨doc.id, effHash model doc, doc.metadata, emb doc.text, t1⟩
  refine ⟨by rw [h1], ?_⟩
  exact upsert_single_same emb t2 doc model path _ _ hp hm hsame

theorem upsert_idempotent_witness :
    command_upsert_run false (fun _ => [3]) 2 [⟨"a", "t", none, "md"⟩] "m" "p"
        (command_upsert_run false (fun _ => [3]) 1 [⟨"a", "t", none, "md"⟩] "m" "p"
          ⟨[], []⟩ []).store
        (command_upsert_run false (fun _ => [3]) 1 [⟨"a", "t", none, "md"⟩] "m" "p"
          ⟨[], []⟩ []).cache =
      ⟨(command_upsert_run false (fun _ => [3]) 1 [⟨"a", "t", none, "md"⟩] "m" "p"
          ⟨[], []⟩ []).store,
        (command_upsert_run false (fun _ => [3]) 1 [⟨"a", "t", none, "md"⟩] "m" "p"
          ⟨[], []⟩ []).cache, some 0, []⟩ :=
  (upsert_idempotent (fun _ => [3]) 1 2 ⟨"a", "t", none, "md"⟩ "m" "p" ⟨[], []⟩ []
    (by decide) (by decide) rfl rfl).2

end MemoryIndex
